import Mathlib

/-!
# Verification of the LamaH-CE dataset pipeline (`dataset.py`)

A shallow embedding of the `LamaHDataset` class: the multi-year sliding-window
index algebra (`year_sizes`, `len`, `_decode_index`, `get`), the per-gauge
normalization transforms, and the topology-building pipeline of `process()`
(recursive upstream collection, the feasibility filter with its summary
statistics, and the bypass-surgery loop that removes infeasible gauges).

Machine integers are modelled as `ℤ` (Python ints are unbounded), pandas
float columns as `ℚ` (exact arithmetic; the floating-point tolerance noted in
the spec is out of scope), tables as `List`s of row structures, and Python
sets as `Finset ℤ`.  Python's floor division `//` is `Int.fdiv`.
-/

namespace LamaH

/-! ## Windowed sample index: `year_sizes`, `len`, `_decode_index`

`__init__` computes
`year_sizes = [(24 * (365 + int(year % 4 == 0)) - (window_size + lead_time)) // stride_length + 1 for year in years]`
and `len()` returns `sum(self.year_sizes)`. -/

/-- Hours in a year as `dataset.py` line 21 computes them:
`24 * (365 + int(year % 4 == 0))`. -/
def hoursInYear (year : ℤ) : ℤ :=
  24 * (365 + if year % 4 = 0 then 1 else 0)

/-- One element of `self.year_sizes` (line 21-22):
`(hoursInYear year - (window_size + lead_time)) // stride_length + 1`,
with Python's floor division. -/
def yearSize (w l s year : ℤ) : ℤ :=
  Int.fdiv (hoursInYear year - (w + l)) s + 1

/-- `len()` (lines 119-120): the sum of the per-year sizes. -/
def totalLen (w l s : ℤ) (years : List ℤ) : ℤ :=
  (years.map (yearSize w l s)).sum

/-- The Gregorian leap-year rule, as the spec's phrase "leap years" denotes.
Modelled from the spec wording (the code itself uses `year % 4 == 0`);
kept only to compare the code's rule against it. -/
def isLeapYear (y : ℤ) : Bool :=
  decide (y % 4 = 0 ∧ (y % 100 ≠ 0 ∨ y % 400 = 0))

/-- Hours in a year according to the spec's wording:
"8784 for leap years and 8760 otherwise". -/
def hoursInYearSpec (y : ℤ) : ℤ :=
  if isLeapYear y then 8784 else 8760

/-- Hours in a year under the rule the code actually implements:
8784 when `year % 4 == 0`, 8760 otherwise. -/
def hoursInYearJulian (y : ℤ) : ℤ :=
  if y % 4 = 0 then 8784 else 8760

/-- `_decode_index` (lines 134-139), over the list of year sizes.  The loop
subtracts each size from `idx` in turn and, as soon as `idx` has gone
negative, returns the current year and the offset
`stride_length_hrs * (idx + size)`; falling off the end raises
`AssertionError`, modelled as `none`.  Where the code returns the year's
tensor `self.year_tensors[i]`, we return the year position `i`; `getSample`
below performs the corresponding tensor lookup. -/
def decodeIndex (stride : ℤ) : List ℤ → ℤ → Option (ℕ × ℤ)
  | [], _ => none
  | size :: rest, idx =>
    if idx - size < 0 then
      some (0, stride * (idx - size + size))
    else
      (decodeIndex stride rest (idx - size)).map (fun p => (p.1 + 1, p.2))

/-! ## Sample materializer: `get` -/

/-- The input slice of `get` (line 124): `year_tensor[:, offset:offset+window_size]`,
on a year tensor modelled as a list of per-gauge hour rows. -/
def getSampleX (tensor : List (List ℚ)) (offset w : ℕ) : List (List ℚ) :=
  tensor.map (fun row => (row.drop offset).take w)

/-- The target slice of `get` (line 125):
`year_tensor[:, offset + window_size + (lead_time - 1)]` (one column). -/
def getSampleY (tensor : List (List ℚ)) (offset w l : ℕ) : List ℚ :=
  tensor.map (fun row => row.getD (offset + w + (l - 1)) 0)

/-- `get` (lines 122-126): decode the flat index, then slice the decoded
year's tensor at the decoded offset. -/
def getSample (stride : ℤ) (sizes : List ℤ) (tensors : List (List (List ℚ)))
    (w l : ℕ) (idx : ℤ) : Option (List (List ℚ) × List ℚ) :=
  (decodeIndex stride sizes idx).map (fun p =>
    let tensor := tensors.getD p.1 []
    (getSampleX tensor p.2.toNat w, getSampleY tensor p.2.toNat w l))

/-! ## Topology builder: `process()` (lines 64-117)

`Stream_dist.csv` rows after dropping the raw `strm_slope` column:
`ID`, `NEXTDOWNID` as integers, `dist_hdn` and `elev_diff` as rationals. -/

/-- One row of the (slope-stripped) `stream_dist` table. -/
structure Row where
  id : ℤ
  next : ℤ
  dist : ℚ
  elev : ℚ
deriving DecidableEq, Repr

/-- The edge relation of a `stream_dist` table: `a ⟶ b` when some row has
`ID = a` and `NEXTDOWNID = b`. -/
def stepRel (rows : List Row) (a b : ℤ) : Prop :=
  ∃ r ∈ rows, r.id = a ∧ r.next = b

/-- The stream network carries no directed cycle.  The spec assumes this of
the input ("the stream network is assumed acyclic"). -/
def Acyclic (rows : List Row) : Prop :=
  ∀ a, ¬ Relation.TransGen (stepRel rows) a a

/-- `connected_gauges` (line 75): every ID appearing in the `ID` or
`NEXTDOWNID` column. -/
def connectedSet (rows : List Row) : Set ℤ :=
  {x | ∃ r ∈ rows, r.id = x ∨ r.next = x}

/-- `set(stream_dist[stream_dist["NEXTDOWNID"] == id]["ID"])` (line 69):
the immediate predecessors of `id`, deduplicated. -/
def predsOf (rows : List Row) (id : ℤ) : List ℤ :=
  ((rows.filter (fun r => r.next = id)).map (fun r => r.id)).dedup

/-- Union of a list of optional recursive results; `none` (the Python
recursion failing to return) propagates. -/
def optUnion (f : ℤ → Option (Finset ℤ)) : List ℤ → Option (Finset ℤ)
  | [] => some ∅
  | p :: ps =>
    match f p, optUnion f ps with
    | some s, some t => some (s ∪ t)
    | _, _ => none

/-- `collect_upstream` (lines 68-73), with explicit fuel standing for the
(finite) recursion depth Python actually uses: with no predecessors return
`{id}`, otherwise `{id}.union(*(collect_upstream(pred) for pred in predecessors))`.
`none` means the fuel ran out, i.e. the Python recursion would still be
descending at that depth. -/
def collectUpstream (rows : List Row) : ℕ → ℤ → Option (Finset ℤ)
  | 0 => fun _ => none
  | n + 1 => fun id =>
    let preds := predsOf rows id
    if preds = [] then
      some {id}
    else
      (optUnion (collectUpstream rows n) preds).map (fun t => insert id t)

/-- One iteration of the bad-gauge-removal loop (lines 95-109) for gauge `g`:
select incoming (`NEXTDOWNID == g`) and outgoing (`ID == g`) rows, drop both
sets, and append the cross-product bypass rows with summed `dist_hdn` and
`elev_diff` and the successor's `NEXTDOWNID`. -/
def removeGauge (rows : List Row) (g : ℤ) : List Row :=
  let incoming := rows.filter (fun r => r.next = g)
  let outgoing := rows.filter (fun r => r.id = g)
  let remaining := (rows.filter (fun r => ¬ r.next = g)).filter (fun r => ¬ r.id = g)
  remaining ++ incoming.flatMap (fun i => outgoing.map (fun o =>
    { id := i.id, next := o.next, dist := i.dist + o.dist, elev := i.elev + o.elev }))

/-- The whole removal loop, iterating `removeGauge` over the excluded gauges
in the given order. -/
def repairAll (rows : List Row) (excl : List ℤ) : List Row :=
  excl.foldl removeGauge rows

/-- A gauge is mentioned by a table when some row has it as `ID` or as
`NEXTDOWNID`. -/
def mentions (rows : List Row) (g : ℤ) : Prop :=
  ∃ r ∈ rows, r.id = g ∨ r.next = g

instance (rows : List Row) (g : ℤ) : Decidable (mentions rows g) := by
  unfold mentions; infer_instance

/-- A row of the persisted `adjacency.csv`: the surviving columns plus the
recomputed `strm_slope`. -/
structure OutRow where
  id : ℤ
  next : ℤ
  dist : ℚ
  elev : ℚ
  slope : ℚ
deriving DecidableEq, Repr

/-- Lines 112-114: recompute `strm_slope = elev_diff / dist_hdn` and sort the
table by `ID` (a stable sort, like pandas `sort_values`) before persisting. -/
def finalize (rows : List Row) : List OutRow :=
  List.insertionSort (fun x y => x.id ≤ y.id)
    (rows.map (fun r => OutRow.mk r.id r.next r.dist r.elev (r.elev / r.dist)))

/-! ## Feasibility filter and summary statistics (lines 79-91) -/

/-- One row of a per-gauge hourly series file, keeping the columns the
filter consumes (`YYYY` and `qobs`; the `MM, DD, hh, mm` columns feed only a
boundary-timestamp assertion, which is not modelled). -/
structure TSRow where
  yyyy : ℤ
  qobs : ℚ
deriving DecidableEq, Repr

/-- `(ts["qobs"] >= 0).all()` (line 84). -/
def qobsNonneg (ts : List TSRow) : Bool :=
  ts.all (fun r => decide (0 ≤ r.qobs))

/-- `ts[(ts["YYYY"] >= 2000) & (ts["YYYY"] <= 2017)]` (line 85). -/
def refPeriod (ts : List TSRow) : List TSRow :=
  ts.filter (fun r => decide (2000 ≤ r.yyyy ∧ r.yyyy ≤ 2017))

/-- `len(sub_ts) == (18 * 365 + 5) * 24` (line 86). -/
def coverageOK (ts : List TSRow) : Bool :=
  (refPeriod ts).length == (18 * 365 + 5) * 24

/-- Both feasibility checks of the gauge-filtering loop. -/
def feasible (ts : List TSRow) : Bool :=
  qobsNonneg ts && coverageOK ts

/-- `Series.mean()`: sum divided by length (0 on the empty list, where
pandas yields NaN). -/
def listMean (l : List ℚ) : ℚ := l.sum / l.length

/-- `Series.min()`. -/
def listMin (l : List ℚ) : ℚ :=
  match l with
  | [] => 0
  | x :: xs => xs.foldl min x

/-- `Series.max()`. -/
def listMax (l : List ℚ) : ℚ :=
  match l with
  | [] => 0
  | x :: xs => xs.foldl max x

/-- `Series.median()`: middle element of the sorted list, or the average of
the two middle elements for an even length. -/
def listMedian (l : List ℚ) : ℚ :=
  let s := List.insertionSort (fun x y => x ≤ y) l
  if l.length % 2 = 1 then s.getD (l.length / 2) 0
  else (s.getD (l.length / 2 - 1) 0 + s.getD (l.length / 2) 0) / 2

/-- The square of `Series.std()` (pandas' sample standard deviation,
`ddof = 1`): `Σ (x - mean)² / (n - 1)`.  The standard deviation itself is
irrational in general, so the embedding carries its square. -/
def sampleVar (l : List ℚ) : ℚ :=
  (l.map (fun x => (x - listMean l) ^ 2)).sum / (l.length - 1 : ℤ)

/-- The persisted statistics row `[mean, std, min, median, max]` (line 88),
with the standard deviation represented by its square `svar`. -/
structure Stats where
  mean : ℚ
  svar : ℚ
  minv : ℚ
  medv : ℚ
  maxv : ℚ
deriving DecidableEq, Repr

/-- Summary statistics of a list of discharge values. -/
def summarize (l : List ℚ) : Stats :=
  ⟨listMean l, sampleVar l, listMin l, listMedian l, listMax l⟩

/-- Lines 84-89 for one gauge: if both feasibility checks pass, the retained
statistics row — computed, as the code does, over `ts["qobs"]`, the FULL raw
series. -/
def gaugeStats (ts : List TSRow) : Option Stats :=
  if feasible ts then some (summarize (ts.map (fun r => r.qobs))) else none

/-- Modelled from the spec: the same retention rule, but with the statistics
"computed over a fixed reference period", i.e. over the 2000-2017 rows used
by the coverage check.  Kept only to compare against `gaugeStats`. -/
def gaugeStatsSpec (ts : List TSRow) : Option Stats :=
  if feasible ts then some (summarize ((refPeriod ts).map (fun r => r.qobs))) else none

/-- A synthetic hourly series: one pre-reference-period row (1999, discharge
5) followed by exactly the reference period's worth of rows (year 2000,
discharge 1).  It passes both feasibility checks while its full-series and
reference-period statistics differ. -/
def demoSeries : List TSRow :=
  ⟨1999, 5⟩ :: List.replicate ((18 * 365 + 5) * 24) ⟨2000, 1⟩

/-! ## Gauge list and edge index (`__init__`, lines 24-28) -/

/-- `self.gauges = list(sorted(set(adjacency["ID"]).union(adjacency["NEXTDOWNID"])))`:
the IDs of both columns, deduplicated and sorted ascending. -/
def gaugeList (rows : List Row) : List ℤ :=
  List.insertionSort (· ≤ ·) (rows.map (fun r => r.id) ++ rows.map (fun r => r.next)).dedup

/-- `rev_index[gauge_id]`: the position of a gauge in `self.gauges`. -/
def gaugeIndex (rows : List Row) (x : ℤ) : ℕ :=
  (gaugeList rows).indexOf x

/-- The columns of `edge_index` (lines 26-28): each adjacency row mapped to
the positions of its two endpoints in the gauge list. -/
def edgeIndexPairs (rows : List Row) : List (ℕ × ℕ) :=
  rows.map (fun r => (gaugeIndex rows r.id, gaugeIndex rows r.next))

/-! ## Normalization (lines 128-132) -/

/-- `normalize(x) = (x - mean) / std`, per gauge. -/
def normalize (mean std x : ℚ) : ℚ := (x - mean) / std

/-- `denormalize(x) = std * x + mean`, per gauge. -/
def denormalize (mean std x : ℚ) : ℚ := std * x + mean

/-! ## Shared helper lemmas -/

/-- Full characterization of `_decode_index` on an in-range flat index: the
returned year position `j` is within the size list, the offset is
`stride * r` for `r = i -` (sum of the sizes before year `j`), and `r` is a
valid intra-year position.  (No positivity of the sizes is needed for this
direction.) -/
lemma decodeIndex_spec (stride : ℤ) (sizes : List ℤ) :
    ∀ i : ℤ, 0 ≤ i → i < sizes.sum →
      ∃ j, j < sizes.length ∧
        decodeIndex stride sizes i = some (j, stride * (i - (sizes.take j).sum)) ∧
        0 ≤ i - (sizes.take j).sum ∧ i - (sizes.take j).sum < sizes.getD j 0 := by
  induction sizes with
  | nil =>
    intro i h0 hlt
    simp only [List.sum_nil] at hlt
    omega
  | cons s rest ih =>
    intro i h0 hlt
    simp only [List.sum_cons] at hlt
    by_cases hc : i - s < 0
    · refine ⟨0, Nat.succ_pos _, ?_, by simpa using h0, by simpa using hc⟩
      simp only [decodeIndex, if_pos hc, List.take_zero, List.sum_nil]
      have harg : i - s + s = i - 0 := by ring
      rw [harg]
    · push_neg at hc
      obtain ⟨j, hj, hdec, hge, hlt'⟩ := ih (i - s) (by omega) (by omega)
      refine ⟨j + 1, by simpa using hj, ?_, ?_, ?_⟩
      · simp only [decodeIndex, if_neg (by omega : ¬ i - s < 0), hdec]
        have harg : i - s - (rest.take j).sum = i - ((s :: rest).take (j + 1)).sum := by
          simp [List.take_succ_cons]; ring
        rw [harg]
        rfl
      · simp only [List.take_succ_cons, List.sum_cons]
        omega
      · have hgetD : (s :: rest).getD (j + 1) 0 = rest.getD j 0 := rfl
        rw [hgetD]
        simp only [List.take_succ_cons, List.sum_cons]
        omega

lemma getD_map_of_lt {α β : Type} (f : α → β) (l : List α) (g : ℕ) (d : β) (d' : α)
    (h : g < l.length) : (l.map f).getD g d = f (l.getD g d') := by
  rw [List.getD_eq_getElem _ _ (by simpa using h), List.getD_eq_getElem _ _ h]
  simp [List.getElem_map]

lemma getD_mem_of_lt {α : Type} (l : List α) (g : ℕ) (d : α) (h : g < l.length) :
    l.getD g d ∈ l := by
  rw [List.getD_eq_getElem _ _ h]
  exact l.getElem_mem h

/-- Membership in the table after one removal step: either an original row
mentioning `g` in neither column, or a bypass row built from an incoming and
an outgoing row of `g`. -/
lemma mem_removeGauge {rows : List Row} {g : ℤ} {r : Row} :
    r ∈ removeGauge rows g ↔
      (r ∈ rows ∧ r.next ≠ g ∧ r.id ≠ g) ∨
      (∃ i ∈ rows, ∃ o ∈ rows, i.next = g ∧ o.id = g ∧
        r = ⟨i.id, o.next, i.dist + o.dist, i.elev + o.elev⟩) := by
  unfold removeGauge
  simp only [List.mem_append, List.mem_filter, List.mem_flatMap, List.mem_map,
    decide_eq_true_eq]
  constructor
  · rintro (⟨⟨hr, hnext⟩, hid⟩ | ⟨i, ⟨hi, hin⟩, o, ⟨ho, hoid⟩, rfl⟩)
    · exact Or.inl ⟨hr, hnext, hid⟩
    · exact Or.inr ⟨i, hi, o, ho, hin, hoid, rfl⟩
  · rintro (⟨hr, hnext, hid⟩ | ⟨i, hi, o, ho, hin, hoid, rfl⟩)
    · exact Or.inl ⟨⟨hr, hnext⟩, hid⟩
    · exact Or.inr ⟨i, ⟨hi, hin⟩, o, ⟨ho, hoid⟩, rfl⟩

/-- Every edge of the repaired table is a (composite) path of the original
table. -/
lemma stepRel_removeGauge {rows : List Row} {g a b : ℤ}
    (h : stepRel (removeGauge rows g) a b) :
    Relation.TransGen (stepRel rows) a b := by
  obtain ⟨r, hr, hid, hnext⟩ := h
  rcases mem_removeGauge.mp hr with ⟨hold, _, _⟩ | ⟨i, hi, o, ho, hin, hoid, rfl⟩
  · exact Relation.TransGen.single ⟨r, hold, hid, hnext⟩
  · exact (Relation.TransGen.single ⟨i, hi, hid, hin⟩).tail ⟨o, ho, hoid, hnext⟩

/-- One removal step preserves acyclicity. -/
lemma acyclic_removeGauge (rows : List Row) (g : ℤ) (hacy : Acyclic rows) :
    Acyclic (removeGauge rows g) := by
  intro a hTG
  apply hacy a
  have := hTG.mono (fun x y h => stepRel_removeGauge (g := g) h)
  rwa [Relation.transGen_idem] at this

/-- After `removeGauge rows g` on an acyclic table, no row mentions `g`. -/
lemma not_mentions_removeGauge (rows : List Row) (g : ℤ) (hacy : Acyclic rows) :
    ¬ mentions (removeGauge rows g) g := by
  rintro ⟨r, hr, hcase⟩
  rcases mem_removeGauge.mp hr with ⟨_, hnext, hid⟩ | ⟨i, hi, o, ho, hin, hoid, rfl⟩
  · rcases hcase with h | h <;> [exact hid h; exact hnext h]
  · rcases hcase with h | h
    · exact hacy g (Relation.TransGen.single ⟨i, hi, h, hin⟩)
    · exact hacy g (Relation.TransGen.single ⟨o, ho, hoid, h⟩)

/-- A gauge mentioned nowhere stays unmentioned through a removal step. -/
lemma not_mentions_mono (rows : List Row) (g h : ℤ) (hnm : ¬ mentions rows h) :
    ¬ mentions (removeGauge rows g) h := by
  rintro ⟨r, hr, hcase⟩
  rcases mem_removeGauge.mp hr with ⟨hold, _, _⟩ | ⟨i, hi, o, ho, _, _, rfl⟩
  · exact hnm ⟨r, hold, hcase⟩
  · rcases hcase with hc | hc
    · exact hnm ⟨i, hi, Or.inl hc⟩
    · exact hnm ⟨o, ho, Or.inr hc⟩

/-- A gauge mentioned nowhere stays unmentioned through the whole loop. -/
lemma not_mentions_repairAll (rows : List Row) (excl : List ℤ) (h : ℤ)
    (hnm : ¬ mentions rows h) : ¬ mentions (repairAll rows excl) h := by
  induction excl generalizing rows with
  | nil => exact hnm
  | cons e rest ih => exact ih (removeGauge rows e) (not_mentions_mono rows e h hnm)

/-- A concrete way to certify acyclicity: a rank function strictly
decreasing along every edge. -/
lemma acyclic_of_rank (rows : List Row) (rank : ℤ → ℕ)
    (h : ∀ r ∈ rows, rank r.next < rank r.id) : Acyclic rows := by
  intro a hTG
  have key : ∀ x y, Relation.TransGen (stepRel rows) x y → rank y < rank x := by
    intro x y hxy
    induction hxy with
    | single hstep =>
      obtain ⟨r, hr, rfl, rfl⟩ := hstep
      exact h r hr
    | tail _ hstep ih =>
      obtain ⟨r, hr, rfl, rfl⟩ := hstep
      exact lt_trans (h r hr) ih
  exact lt_irrefl _ (key a a hTG)

lemma collectUpstream_zero (rows : List Row) (id : ℤ) :
    collectUpstream rows 0 id = none := rfl

lemma collectUpstream_succ (rows : List Row) (n : ℕ) (id : ℤ) :
    collectUpstream rows (n + 1) id =
      if predsOf rows id = [] then some {id}
      else (optUnion (collectUpstream rows n) (predsOf rows id)).map
        (fun t => insert id t) := rfl

lemma mem_predsOf {rows : List Row} {p id : ℤ} :
    p ∈ predsOf rows id ↔ stepRel rows p id := by
  unfold predsOf stepRel
  simp only [List.mem_dedup, List.mem_map, List.mem_filter, decide_eq_true_eq]
  constructor
  · rintro ⟨r, ⟨hr, hnext⟩, rfl⟩
    exact ⟨r, hr, rfl, hnext⟩
  · rintro ⟨r, hr, rfl, hnext⟩
    exact ⟨r, ⟨hr, hnext⟩, rfl⟩

lemma optUnion_eq_some {f : ℤ → Option (Finset ℤ)} :
    ∀ {ps : List ℤ} {T : Finset ℤ}, optUnion f ps = some T →
      ∀ p ∈ ps, ∃ S, f p = some S ∧ S ⊆ T := by
  intro ps
  induction ps with
  | nil =>
    intro T _ p hp
    cases hp
  | cons q qs ih =>
    intro T h p hp
    simp only [optUnion] at h
    cases hfq : f q with
    | none => rw [hfq] at h; cases h
    | some s =>
      cases hqs : optUnion f qs with
      | none => rw [hfq, hqs] at h; cases h
      | some t =>
        rw [hfq, hqs] at h
        injection h with h'
        subst h'
        rcases List.mem_cons.mp hp with rfl | hp'
        · exact ⟨s, hfq, Finset.subset_union_left⟩
        · obtain ⟨S, hS, hsub⟩ := ih hqs p hp'
          exact ⟨S, hS, hsub.trans Finset.subset_union_right⟩

lemma mem_optUnion {f : ℤ → Option (Finset ℤ)} :
    ∀ {ps : List ℤ} {T : Finset ℤ}, optUnion f ps = some T →
      ∀ x, x ∈ T ↔ ∃ p ∈ ps, ∃ S, f p = some S ∧ x ∈ S := by
  intro ps
  induction ps with
  | nil =>
    intro T h x
    simp only [optUnion] at h
    injection h with h'
    subst h'
    simp
  | cons q qs ih =>
    intro T h x
    simp only [optUnion] at h
    cases hfq : f q with
    | none => rw [hfq] at h; cases h
    | some s =>
      cases hqs : optUnion f qs with
      | none => rw [hfq, hqs] at h; cases h
      | some t =>
        rw [hfq, hqs] at h
        injection h with h'
        subst h'
        simp only [Finset.mem_union]
        constructor
        · rintro (hx | hx)
          · exact ⟨q, List.mem_cons_self q qs, s, hfq, hx⟩
          · obtain ⟨p, hp, S, hS, hxS⟩ := (ih hqs x).mp hx
            exact ⟨p, List.mem_cons_of_mem q hp, S, hS, hxS⟩
        · rintro ⟨p, hp, S, hS, hxS⟩
          rcases List.mem_cons.mp hp with rfl | hp'
          · rw [hfq] at hS
            injection hS with h2
            subst h2
            exact Or.inl hxS
          · exact Or.inr ((ih hqs x).mpr ⟨p, hp', S, hS, hxS⟩)

lemma optUnion_isSome {f : ℤ → Option (Finset ℤ)} :
    ∀ {ps : List ℤ}, (∀ p ∈ ps, (f p).isSome = true) →
      (optUnion f ps).isSome = true := by
  intro ps
  induction ps with
  | nil => intro; simp [optUnion]
  | cons q qs ih =>
    intro h
    obtain ⟨s, hs⟩ := Option.isSome_iff_exists.mp (h q (List.mem_cons_self q qs))
    obtain ⟨t, ht⟩ :=
      Option.isSome_iff_exists.mp (ih (fun p hp => h p (List.mem_cons_of_mem q hp)))
    simp [optUnion, hs, ht]

/-- Whenever `collect_upstream` returns a set, that set consists of exactly
the gauges from which `id` is reachable along `NEXTDOWNID` edges. -/
lemma collectUpstream_mem {rows : List Row} :
    ∀ {n : ℕ} {id : ℤ} {S : Finset ℤ}, collectUpstream rows n id = some S →
      ∀ g, g ∈ S ↔ Relation.ReflTransGen (stepRel rows) g id := by
  intro n
  induction n with
  | zero =>
    intro id S h
    rw [collectUpstream_zero] at h
    cases h
  | succ n ih =>
    intro id S h
    rw [collectUpstream_succ] at h
    by_cases hp : predsOf rows id = []
    · rw [if_pos hp] at h
      injection h with h'
      subst h'
      intro g
      simp only [Finset.mem_singleton]
      constructor
      · rintro rfl
        exact Relation.ReflTransGen.refl
      · intro hr
        rcases Relation.ReflTransGen.cases_tail hr with heq | ⟨c, _, hstep⟩
        · exact heq.symm
        · have := mem_predsOf.mpr hstep
          rw [hp] at this
          cases this
    · rw [if_neg hp] at h
      obtain ⟨T, hT, rfl⟩ := Option.map_eq_some'.mp h
      intro g
      simp only [Finset.mem_insert]
      constructor
      · rintro (rfl | hgT)
        · exact Relation.ReflTransGen.refl
        · obtain ⟨p, hp', Sp, hSp, hgSp⟩ := (mem_optUnion hT g).mp hgT
          exact ((ih hSp g).mp hgSp).tail (mem_predsOf.mp hp')
      · intro hr
        rcases Relation.ReflTransGen.cases_tail hr with heq | ⟨c, hrc, hstep⟩
        · exact Or.inl heq.symm
        · have hc : c ∈ predsOf rows id := mem_predsOf.mpr hstep
          obtain ⟨Sc, hSc, _⟩ := optUnion_eq_some hT c hc
          exact Or.inr ((mem_optUnion hT g).mpr ⟨c, hc, Sc, hSc, (ih hSc g).mpr hrc⟩)

/-- The strict ancestors of any gauge form a finite set (each has an
outgoing edge, so each appears in the `ID` column). -/
lemma ancestors_finite (rows : List Row) (id : ℤ) :
    {g : ℤ | Relation.TransGen (stepRel rows) g id}.Finite := by
  apply Set.Finite.subset (rows.map (fun r => r.id)).finite_toSet
  intro g hg
  obtain ⟨b, hstep, -⟩ := Relation.TransGen.head'_iff.mp hg
  obtain ⟨r, hr, rfl, -⟩ := hstep
  exact List.mem_map.mpr ⟨r, hr, rfl⟩

/-- On an acyclic table, `collect_upstream` returns once the fuel exceeds
the number of strict ancestors of the queried gauge. -/
lemma collectUpstream_isSome (rows : List Row) (hacy : Acyclic rows) :
    ∀ (n : ℕ) (id : ℤ),
      {g : ℤ | Relation.TransGen (stepRel rows) g id}.ncard < n →
      (collectUpstream rows n id).isSome = true := by
  intro n
  induction n with
  | zero =>
    intro id h
    exact absurd h (Nat.not_lt_zero _)
  | succ n ih =>
    intro id hn
    rw [collectUpstream_succ]
    by_cases hp : predsOf rows id = []
    · rw [if_pos hp]
      rfl
    · rw [if_neg hp]
      have hall : ∀ p ∈ predsOf rows id, (collectUpstream rows n p).isSome = true := by
        intro p hp'
        apply ih
        have hstep : stepRel rows p id := mem_predsOf.mp hp'
        have hsub : {g : ℤ | Relation.TransGen (stepRel rows) g p} ⊆
            {g : ℤ | Relation.TransGen (stepRel rows) g id} :=
          fun g hg => hg.tail hstep
        have hss : {g : ℤ | Relation.TransGen (stepRel rows) g p} ⊂
            {g : ℤ | Relation.TransGen (stepRel rows) g id} :=
          (Set.ssubset_iff_of_subset hsub).mpr
            ⟨p, Relation.TransGen.single hstep, hacy p⟩
        have := Set.ncard_lt_ncard hss (ancestors_finite rows id)
        omega
      obtain ⟨T, hT⟩ := Option.isSome_iff_exists.mp (optUnion_isSome hall)
      rw [hT]
      rfl

lemma filter_replicate_of_pos {α : Type} (n : ℕ) (a : α) (p : α → Bool)
    (h : p a = true) : (List.replicate n a).filter p = List.replicate n a := by
  induction n with
  | zero => rfl
  | succ n ih => simp [List.replicate_succ, List.filter_cons, h, ih]

lemma refPeriod_demoSeries :
    refPeriod demoSeries = List.replicate ((18 * 365 + 5) * 24) ⟨2000, 1⟩ := by
  rw [demoSeries, refPeriod, List.filter_cons]
  norm_num

lemma feasible_demoSeries : feasible demoSeries = true := by
  rw [feasible, Bool.and_eq_true]
  constructor
  · rw [demoSeries, qobsNonneg, List.all_cons, Bool.and_eq_true]
    refine ⟨by norm_num, ?_⟩
    simp only [List.all_eq_true]
    intro x hx
    rw [List.eq_of_mem_replicate hx]
    norm_num
  · rw [coverageOK, refPeriod_demoSeries, List.length_replicate]
    rfl

lemma gaugeStats_demoSeries_mean :
    Option.map Stats.mean (gaugeStats demoSeries) = some (157805 / 157801 : ℚ) := by
  rw [gaugeStats, if_pos feasible_demoSeries, Option.map_some']
  congr 1
  show listMean (demoSeries.map (fun r => r.qobs)) = 157805 / 157801
  rw [demoSeries, List.map_cons, List.map_replicate, listMean, List.sum_cons,
    List.sum_replicate, List.length_cons, List.length_replicate]
  norm_num

lemma gaugeStatsSpec_demoSeries_mean :
    Option.map Stats.mean (gaugeStatsSpec demoSeries) = some 1 := by
  rw [gaugeStatsSpec, if_pos feasible_demoSeries, Option.map_some']
  congr 1
  show listMean ((refPeriod demoSeries).map (fun r => r.qobs)) = 1
  rw [refPeriod_demoSeries, List.map_replicate, listMean, List.sum_replicate,
    List.length_replicate]
  norm_num

/-! ## Claim theorems -/

/-- C1: for every valid flat sample index `i` (`0 ≤ i <` the total count
returned by `len()`, every per-year size positive), `_decode_index(i)`
returns a year position `j` and the offset `stride_length_hrs * r` where
`r = i -` (sum of the sizes of the years before `j`), `r` is a valid
position inside year `j`, and re-encoding — adding `r` back to that prefix
of the size sum — recovers exactly `i`. -/
theorem decode_index_round_trip (w l s : ℤ) (years : List ℤ) (i : ℤ)
    (hpos : ∀ y ∈ years, 0 < yearSize w l s y)
    (h0 : 0 ≤ i) (hlen : i < totalLen w l s years) :
    ∃ j, j < (years.map (yearSize w l s)).length ∧
      decodeIndex s (years.map (yearSize w l s)) i =
        some (j, s * (i - ((years.map (yearSize w l s)).take j).sum)) ∧
      0 ≤ i - ((years.map (yearSize w l s)).take j).sum ∧
      i - ((years.map (yearSize w l s)).take j).sum < (years.map (yearSize w l s)).getD j 0 ∧
      ((years.map (yearSize w l s)).take j).sum +
        (i - ((years.map (yearSize w l s)).take j).sum) = i := by
  obtain ⟨j, hj, hdec, hge, hlt⟩ := decodeIndex_spec s (years.map (yearSize w l s)) i h0 hlen
  exact ⟨j, hj, hdec, hge, hlt, by ring⟩

/-- Witness for C1: with `window_size = 24`, `lead_time = 1`, `stride = 1`
and years `[2000, 2001]` (sizes `[8760, 8736]`), flat index `9000` decodes
into the second year. -/
theorem decode_index_round_trip_witness :
    (∀ y ∈ [(2000 : ℤ), 2001], 0 < yearSize 24 1 1 y) ∧ (0 : ℤ) ≤ 9000 ∧
      (9000 : ℤ) < totalLen 24 1 1 [2000, 2001] ∧
      ∃ j, j < ([(2000 : ℤ), 2001].map (yearSize 24 1 1)).length ∧
        decodeIndex 1 ([(2000 : ℤ), 2001].map (yearSize 24 1 1)) 9000 =
          some (j, 1 * (9000 - (([(2000 : ℤ), 2001].map (yearSize 24 1 1)).take j).sum)) ∧
        0 ≤ 9000 - (([(2000 : ℤ), 2001].map (yearSize 24 1 1)).take j).sum ∧
        9000 - (([(2000 : ℤ), 2001].map (yearSize 24 1 1)).take j).sum <
          ([(2000 : ℤ), 2001].map (yearSize 24 1 1)).getD j 0 ∧
        (([(2000 : ℤ), 2001].map (yearSize 24 1 1)).take j).sum +
          (9000 - (([(2000 : ℤ), 2001].map (yearSize 24 1 1)).take j).sum) = 9000 :=
  ⟨by decide, by decide, by decide,
    decode_index_round_trip 24 1 1 [2000, 2001] 9000 (by decide) (by decide) (by decide)⟩

/-- C9: for every flat index `i` with `0 ≤ i < len()` (all per-year sizes
positive), `_decode_index` returns from within the loop — the
`AssertionError` branch (modelled as `none`) is unreachable when the total
count and the per-year sizes come from the same list. -/
theorem decode_index_total (w l s : ℤ) (years : List ℤ) (i : ℤ)
    (hpos : ∀ y ∈ years, 0 < yearSize w l s y)
    (h0 : 0 ≤ i) (hlen : i < totalLen w l s years) :
    (decodeIndex s (years.map (yearSize w l s)) i).isSome = true := by
  obtain ⟨j, _, hdec, _⟩ := decodeIndex_spec s (years.map (yearSize w l s)) i h0 hlen
  rw [hdec]
  rfl

/-- Witness for C9: the default configuration's first two years, flat index
`17000`. -/
theorem decode_index_total_witness :
    (∀ y ∈ [(2000 : ℤ), 2001], 0 < yearSize 24 1 1 y) ∧ (0 : ℤ) ≤ 17000 ∧
      (17000 : ℤ) < totalLen 24 1 1 [2000, 2001] ∧
      (decodeIndex 1 ([(2000 : ℤ), 2001].map (yearSize 24 1 1)) 17000).isSome = true :=
  ⟨by decide, by decide, by decide,
    decode_index_total 24 1 1 [2000, 2001] 17000 (by decide) (by decide) (by decide)⟩

/-- C4, counterexample: the code computes hours-in-year by the Julian rule
`year % 4 == 0`.  The year 1900 is not a Gregorian leap year (the spec's
"hours_in_year = 8784 for leap years and 8760 otherwise" gives 8760), yet
the code uses 8784 hours, so with `window_size = 24`, `lead_time = 1`,
`stride = 1` the code's per-year count is 8760 while the spec formula gives
8736. -/
theorem year_size_leap_rule_counterexample :
    hoursInYear 1900 = 8784 ∧ hoursInYearSpec 1900 = 8760 ∧
      yearSize 24 1 1 1900 = 8760 ∧
      Int.fdiv (hoursInYearSpec 1900 - (24 + 1)) 1 + 1 = 8736 := by
  refine ⟨by decide, by decide, by decide, by decide⟩

/-- C4, amended: for every configured year the per-year count equals
`floor((hours_in_year - window_size - lead_time) / stride) + 1` with
`hours_in_year = 8784` when `year % 4 == 0` and `8760` otherwise (the code's
Julian rule, which agrees with the Gregorian leap-year rule on the default
configured range 2000-2017); `len()` returns the sum of the per-year
counts. -/
theorem year_size_julian_rule (w l s : ℤ) (years : List ℤ) :
    (∀ y ∈ years, yearSize w l s y = Int.fdiv (hoursInYearJulian y - (w + l)) s + 1) ∧
      (∀ y : ℤ, 2000 ≤ y → y ≤ 2017 → hoursInYear y = hoursInYearSpec y) ∧
      totalLen w l s years = (years.map (yearSize w l s)).sum := by
  refine ⟨fun y _ => ?_, fun y h1 h2 => ?_, rfl⟩
  · unfold yearSize hoursInYear hoursInYearJulian
    by_cases h : y % 4 = 0 <;> simp [h]
  · interval_cases y <;> decide

/-- Witness for C4's amended theorem, at the default parameters and the
leap year 2016. -/
theorem year_size_julian_rule_witness :
    ((2016 : ℤ) ∈ [(2016 : ℤ)] ∧
        yearSize 24 1 1 2016 = Int.fdiv (hoursInYearJulian 2016 - (24 + 1)) 1 + 1) ∧
      (2000 : ℤ) ≤ 2016 ∧ (2016 : ℤ) ≤ 2017 ∧ hoursInYear 2016 = hoursInYearSpec 2016 :=
  ⟨⟨by decide, (year_size_julian_rule 24 1 1 [2016]).1 2016 (by decide)⟩,
    by decide, by decide, (year_size_julian_rule 24 1 1 [2016]).2.1 2016 (by decide) (by decide)⟩

/-- C7: with `std ≠ 0`, `normalize(x) = (x - mean) / std` and
`denormalize(x) = std * x + mean` are exact inverses in both directions
(over exact arithmetic). -/
theorem normalize_denormalize_inverse (mean std x : ℚ) (h : std ≠ 0) :
    normalize mean std (denormalize mean std x) = x ∧
      denormalize mean std (normalize mean std x) = x := by
  unfold normalize denormalize
  constructor
  · field_simp
  · field_simp

/-- Witness for C7 at `mean = 2`, `std = 3`, `x = 5`. -/
theorem normalize_denormalize_inverse_witness :
    (3 : ℚ) ≠ 0 ∧ normalize 2 3 (denormalize 2 3 5) = 5 ∧
      denormalize 2 3 (normalize 2 3 5) = 5 :=
  ⟨by norm_num, normalize_denormalize_inverse 2 3 5 (by norm_num)⟩

/-- C6: whenever the flat index `idx` decodes to year position `j` with
offset `off`, `get` returns a sample whose input `x` consists exactly of the
columns `[off, off + window_size)` of that year's tensor (one row of length
`window_size` per gauge) and whose target `y` is exactly the single column
`off + window_size + lead_time - 1` (precondition `lead_time ≥ 1`).  In
particular, with `window_size = 24`, `lead_time = 6`, `stride = 1`: a single
8760-hour year yields `8731` samples, and the sample at offset 0 takes hours
`[0, 24)` as input and hour `29` as target. -/
theorem get_sample_slices (stride : ℤ) (sizes : List ℤ) (tensors : List (List (List ℚ)))
    (w l : ℕ) (idx : ℤ) (j : ℕ) (off : ℤ)
    (hl : 1 ≤ l)
    (hdec : decodeIndex stride sizes idx = some (j, off))
    (hrows : ∀ row ∈ tensors.getD j [], off.toNat + w + l ≤ row.length) :
    (∃ X Y, getSample stride sizes tensors w l idx = some (X, Y) ∧
      X.length = (tensors.getD j []).length ∧
      Y.length = (tensors.getD j []).length ∧
      (∀ g, (hg : g < (tensors.getD j []).length) → (X.getD g []).length = w) ∧
      (∀ g k, g < (tensors.getD j []).length → k < w →
        (X.getD g []).getD k 0 = ((tensors.getD j []).getD g []).getD (off.toNat + k) 0) ∧
      (∀ g, g < (tensors.getD j []).length →
        Y.getD g 0 = ((tensors.getD j []).getD g []).getD (off.toNat + w + (l - 1)) 0)) ∧
    yearSize 24 6 1 2001 = 8731 ∧
    (∀ tensor : List (List ℚ), getSampleX tensor 0 24 = tensor.map (fun row => row.take 24)) ∧
    (∀ tensor : List (List ℚ),
      getSampleY tensor 0 24 6 = tensor.map (fun row => row.getD 29 0)) := by
  refine ⟨?_, by decide, fun tensor => by simp [getSampleX], fun tensor => rfl⟩
  set tensor := tensors.getD j [] with htensor
  refine ⟨getSampleX tensor off.toNat w, getSampleY tensor off.toNat w l, ?_, ?_, ?_, ?_, ?_, ?_⟩
  · rw [getSample, hdec]
    rfl
  · simp [getSampleX]
  · simp [getSampleY]
  · intro g hg
    rw [getSampleX, getD_map_of_lt _ tensor g [] [] hg, List.length_take, List.length_drop]
    have hrow := hrows (tensor.getD g []) (getD_mem_of_lt tensor g [] hg)
    omega
  · intro g k hg hk
    have hrow := hrows (tensor.getD g []) (getD_mem_of_lt tensor g [] hg)
    rw [getSampleX, getD_map_of_lt _ tensor g [] [] hg]
    have hklen : k < (((tensor.getD g []).drop off.toNat).take w).length := by
      simp only [List.length_take, List.length_drop]
      omega
    rw [List.getD_eq_getElem _ _ hklen]
    simp only [List.getElem_take, List.getElem_drop]
    exact (List.getD_eq_getElem _ _ (by omega)).symm
  · intro g hg
    rw [getSampleY, getD_map_of_lt _ tensor g 0 [] hg]

/-- Witness for C6: stride 1, one year of size 3, a single gauge with hour
series `[1, 2, 3, 4]`, `window_size = 2`, `lead_time = 1`, flat index 1
(offset 1). -/
theorem get_sample_slices_witness :
    (1 : ℕ) ≤ 1 ∧
      decodeIndex 1 [3] 1 = some (0, 1) ∧
      (∀ row ∈ ([[[1, 2, 3, 4]]] : List (List (List ℚ))).getD 0 [],
        (1 : ℤ).toNat + 2 + 1 ≤ row.length) ∧
      ((∃ X Y, getSample 1 [3] [[[1, 2, 3, 4]]] 2 1 1 = some (X, Y) ∧
        X.length = (([[[1, 2, 3, 4]]] : List (List (List ℚ))).getD 0 []).length ∧
        Y.length = (([[[1, 2, 3, 4]]] : List (List (List ℚ))).getD 0 []).length ∧
        (∀ g, g < (([[[1, 2, 3, 4]]] : List (List (List ℚ))).getD 0 []).length →
          (X.getD g []).length = 2) ∧
        (∀ g k, g < (([[[1, 2, 3, 4]]] : List (List (List ℚ))).getD 0 []).length → k < 2 →
          (X.getD g []).getD k 0 =
            ((([[[1, 2, 3, 4]]] : List (List (List ℚ))).getD 0 []).getD g []).getD
              ((1 : ℤ).toNat + k) 0) ∧
        (∀ g, g < (([[[1, 2, 3, 4]]] : List (List (List ℚ))).getD 0 []).length →
          Y.getD g 0 =
            ((([[[1, 2, 3, 4]]] : List (List (List ℚ))).getD 0 []).getD g []).getD
              ((1 : ℤ).toNat + 2 + (1 - 1)) 0)) ∧
      yearSize 24 6 1 2001 = 8731 ∧
      (∀ tensor : List (List ℚ), getSampleX tensor 0 24 = tensor.map (fun row => row.take 24)) ∧
      (∀ tensor : List (List ℚ),
        getSampleY tensor 0 24 6 = tensor.map (fun row => row.getD 29 0))) :=
  ⟨le_refl 1, by decide, by decide,
    get_sample_slices 1 [3] [[[1, 2, 3, 4]]] 2 1 1 0 1 (le_refl 1) (by decide) (by decide)⟩

/-- C10: after construction the gauge list is the strictly ascending,
duplicate-free enumeration of exactly the IDs appearing in the `ID` or
`NEXTDOWNID` columns of the adjacency table, and every entry of
`edge_index` is a valid position into it. -/
theorem gauge_list_sorted_and_edge_index_valid (rows : List Row) :
    List.Sorted (· < ·) (gaugeList rows) ∧
      (∀ x, x ∈ gaugeList rows ↔ x ∈ connectedSet rows) ∧
      (∀ p ∈ edgeIndexPairs rows,
        p.1 < (gaugeList rows).length ∧ p.2 < (gaugeList rows).length) := by
  have hperm := List.perm_insertionSort (· ≤ ·)
    (rows.map (fun r => r.id) ++ rows.map (fun r => r.next)).dedup
  have hmem : ∀ x : ℤ, x ∈ gaugeList rows ↔
      x ∈ rows.map (fun r => r.id) ++ rows.map (fun r => r.next) := by
    intro x
    rw [gaugeList, hperm.mem_iff, List.mem_dedup]
  refine ⟨?_, ?_, ?_⟩
  · have hsorted : (gaugeList rows).Sorted (· ≤ ·) :=
      List.sorted_insertionSort (· ≤ ·) _
    have hnodup : (gaugeList rows).Nodup :=
      hperm.nodup_iff.mpr (List.nodup_dedup _)
    exact List.Pairwise.imp₂ (fun a b hle hne => lt_of_le_of_ne hle hne) hsorted hnodup
  · intro x
    rw [hmem]
    constructor
    · intro hx
      rcases List.mem_append.mp hx with hx | hx <;>
        obtain ⟨r, hr, hrx⟩ := List.mem_map.mp hx
      · exact ⟨r, hr, Or.inl hrx⟩
      · exact ⟨r, hr, Or.inr hrx⟩
    · rintro ⟨r, hr, hrx | hrx⟩
      · exact List.mem_append.mpr (Or.inl (List.mem_map.mpr ⟨r, hr, hrx⟩))
      · exact List.mem_append.mpr (Or.inr (List.mem_map.mpr ⟨r, hr, hrx⟩))
  · intro p hp
    obtain ⟨r, hr, hpr⟩ := List.mem_map.mp hp
    have hid : r.id ∈ gaugeList rows :=
      (hmem r.id).mpr (List.mem_append.mpr (Or.inl (List.mem_map.mpr ⟨r, hr, rfl⟩)))
    have hnx : r.next ∈ gaugeList rows :=
      (hmem r.next).mpr (List.mem_append.mpr (Or.inr (List.mem_map.mpr ⟨r, hr, rfl⟩)))
    subst hpr
    exact ⟨List.indexOf_lt_length.mpr hid, List.indexOf_lt_length.mpr hnx⟩

/-- Witness for C10 on a concrete two-row table: the first edge-index pair
`(2, 0)` is a valid pair of positions. -/
theorem gauge_list_sorted_and_edge_index_valid_witness :
    ((2, 0) : ℕ × ℕ) ∈ edgeIndexPairs [⟨5, 2, 1, 1⟩, ⟨2, 3, 1, 1⟩] ∧
      (((2, 0) : ℕ × ℕ).1 < (gaugeList [⟨5, 2, 1, 1⟩, ⟨2, 3, 1, 1⟩]).length ∧
        ((2, 0) : ℕ × ℕ).2 < (gaugeList [⟨5, 2, 1, 1⟩, ⟨2, 3, 1, 1⟩]).length) :=
  ⟨by decide,
    (gauge_list_sorted_and_edge_index_valid [⟨5, 2, 1, 1⟩, ⟨2, 3, 1, 1⟩]).2.2 (2, 0) (by decide)⟩

/-- C2: after the topology-repair loop finishes on an acyclic table (the
spec's standing assumption on the stream network), every excluded gauge —
whatever list order the unordered exclusion set was iterated in, including
when an excluded gauge's predecessor or successor is itself excluded — is
mentioned by zero rows of the final table, as `ID` or as `NEXTDOWNID`. -/
theorem repair_removes_excluded_gauges (rows : List Row) (excl : List ℤ)
    (hacy : Acyclic rows) : ∀ g ∈ excl, ¬ mentions (repairAll rows excl) g := by
  induction excl generalizing rows with
  | nil => intro g hg; cases hg
  | cons e rest ih =>
    intro g hg
    have hacy' := acyclic_removeGauge rows e hacy
    have hfold : repairAll rows (e :: rest) = repairAll (removeGauge rows e) rest := rfl
    rw [hfold]
    rcases List.mem_cons.mp hg with rfl | hg'
    · exact not_mentions_repairAll _ rest _ (not_mentions_removeGauge rows g hacy)
    · exact ih (removeGauge rows e) hacy' g hg'

/-- Witness for C2: the chain `1 → 2 → 3 → 4` with the adjacent gauges `2`
and `3` both excluded (an excluded gauge whose successor is itself excluded);
after the loop, gauge `2` is mentioned nowhere. -/
theorem repair_removes_excluded_gauges_witness :
    (2 : ℤ) ∈ [(2 : ℤ), 3] ∧
      ¬ mentions (repairAll [⟨1, 2, 1, 1⟩, ⟨2, 3, 1, 1⟩, ⟨3, 4, 1, 1⟩] [2, 3]) 2 :=
  ⟨by decide,
    repair_removes_excluded_gauges [⟨1, 2, 1, 1⟩, ⟨2, 3, 1, 1⟩, ⟨3, 4, 1, 1⟩] [2, 3]
      (acyclic_of_rank _ (fun x => (4 - x).toNat) (by decide)) 2 (by decide)⟩

/-- C3: for a 3-node chain `A → B → C` where exactly `B` is excluded, the
persisted adjacency is exactly the single bypass edge `A → C` with
`dist_hdn` and `elev_diff` the sums of the removed pair's attributes and
`strm_slope` recomputed as their quotient. -/
theorem bypass_two_node_chain (a b c : ℤ) (d1 e1 d2 e2 : ℚ)
    (hba : b ≠ a) (hbc : b ≠ c) :
    finalize (repairAll [⟨a, b, d1, e1⟩, ⟨b, c, d2, e2⟩] [b]) =
      [⟨a, c, d1 + d2, e1 + e2, (e1 + e2) / (d1 + d2)⟩] := by
  have h1 : ¬ (c = b) := fun h => hbc h.symm
  have h2 : ¬ (a = b) := fun h => hba h.symm
  have hstep : repairAll [⟨a, b, d1, e1⟩, ⟨b, c, d2, e2⟩] [b] =
      removeGauge [⟨a, b, d1, e1⟩, ⟨b, c, d2, e2⟩] b := rfl
  rw [hstep]
  unfold removeGauge
  simp only [List.filter_cons, List.filter_nil, decide_eq_true_eq, h1, h2,
    if_true, if_false, decide_not]
  norm_num [finalize, List.insertionSort, List.orderedInsert]

/-- Witness for C3: the chain `1 → 2 → 3` with distances `3, 4` and
elevation differences `5, 7`. -/
theorem bypass_two_node_chain_witness :
    (2 : ℤ) ≠ 1 ∧ (2 : ℤ) ≠ 3 ∧
      finalize (repairAll [⟨1, 2, 3, 5⟩, ⟨2, 3, 4, 7⟩] [2]) =
        [⟨1, 3, 3 + 4, 5 + 7, (5 + 7) / (3 + 4)⟩] :=
  ⟨by decide, by decide, bypass_two_node_chain 1 2 3 3 5 4 7 (by decide) (by decide)⟩

/-- C5, counterexample: on the empty stream table — which is acyclic — the
outlet `399` has no predecessors, so `collect_upstream(399)` terminates with
`{399}`; but `399` appears in neither column, so the result is NOT a subset
of the connected set (which is empty).  The claim's subset clause fails for
tables that do not mention the outlet. -/
theorem collect_upstream_subset_counterexample :
    Acyclic ([] : List Row) ∧
      collectUpstream ([] : List Row) 1 399 = some {399} ∧
      ¬ (↑({399} : Finset ℤ) ⊆ connectedSet ([] : List Row)) := by
  refine ⟨?_, rfl, ?_⟩
  · intro a h
    rcases Relation.TransGen.head'_iff.mp h with ⟨b, hstep, -⟩
    obtain ⟨r, hr, -⟩ := hstep
    cases hr
  · intro h
    obtain ⟨r, hr, -⟩ := h (Finset.mem_coe.mpr (Finset.mem_singleton_self 399))
    cases hr

/-- C5, amended: for every acyclic stream table, `collect_upstream(outlet)`
terminates (some finite recursion depth suffices) and returns exactly the
set of gauges from which the outlet is reachable along `NEXTDOWNID` edges
(the outlet itself included; the singleton when it has no predecessors —
that is the reflexive case of reachability); and the result is a subset of
the connected set of IDs appearing in the table PROVIDED the outlet itself
appears in the table. -/
theorem collect_upstream_ancestors (rows : List Row) (outlet : ℤ)
    (hacy : Acyclic rows) :
    ∃ n S, collectUpstream rows n outlet = some S ∧
      (∀ g, g ∈ S ↔ Relation.ReflTransGen (stepRel rows) g outlet) ∧
      (outlet ∈ connectedSet rows → ↑S ⊆ connectedSet rows) := by
  obtain ⟨S, hS⟩ := Option.isSome_iff_exists.mp
    (collectUpstream_isSome rows hacy
      ({g : ℤ | Relation.TransGen (stepRel rows) g outlet}.ncard + 1) outlet
      (Nat.lt_succ_self _))
  refine ⟨_, S, hS, collectUpstream_mem hS, ?_⟩
  intro hout g hg
  have hreach := (collectUpstream_mem hS g).mp (Finset.mem_coe.mp hg)
  rcases Relation.ReflTransGen.cases_head hreach with rfl | ⟨c, hstep, -⟩
  · exact hout
  · obtain ⟨r, hr, rfl, -⟩ := hstep
    exact ⟨r, hr, Or.inl rfl⟩

/-- Witness for C5's amended theorem: the spec's synthetic 5-node acyclic
graph with outlet `399` — edges `1 → 399`, `2 → 399`, `3 → 1`, `4 → 2` —
with acyclicity certified by an explicit rank function. -/
theorem collect_upstream_ancestors_witness :
    ∃ n S,
      collectUpstream [⟨1, 399, 1, 1⟩, ⟨2, 399, 1, 1⟩, ⟨3, 1, 1, 1⟩, ⟨4, 2, 1, 1⟩] n 399 =
        some S ∧
      (∀ g, g ∈ S ↔ Relation.ReflTransGen
        (stepRel [⟨1, 399, 1, 1⟩, ⟨2, 399, 1, 1⟩, ⟨3, 1, 1, 1⟩, ⟨4, 2, 1, 1⟩]) g 399) ∧
      ((399 : ℤ) ∈ connectedSet [⟨1, 399, 1, 1⟩, ⟨2, 399, 1, 1⟩, ⟨3, 1, 1, 1⟩, ⟨4, 2, 1, 1⟩] →
        ↑S ⊆ connectedSet [⟨1, 399, 1, 1⟩, ⟨2, 399, 1, 1⟩, ⟨3, 1, 1, 1⟩, ⟨4, 2, 1, 1⟩]) :=
  collect_upstream_ancestors [⟨1, 399, 1, 1⟩, ⟨2, 399, 1, 1⟩, ⟨3, 1, 1, 1⟩, ⟨4, 2, 1, 1⟩] 399
    (acyclic_of_rank _
      (fun x => if x = 399 then 0 else if x = 1 then 1 else if x = 2 then 1 else 2)
      (by decide))

/-- C8, counterexample: `process()` line 88 computes the statistics over
`ts["qobs"]` — the gauge's FULL raw series — not over the 2000-2017
reference period `sub_ts` used by the coverage check.  On a series with one
extra 1999 row of discharge 5 ahead of a constant-1 reference period, the
persisted mean is `157805/157801`, while the mean over the reference period
is `1`. -/
theorem stats_reference_period_counterexample :
    feasible demoSeries = true ∧
      Option.map Stats.mean (gaugeStats demoSeries) = some (157805 / 157801 : ℚ) ∧
      Option.map Stats.mean (gaugeStatsSpec demoSeries) = some 1 ∧
      (157805 / 157801 : ℚ) ≠ 1 :=
  ⟨feasible_demoSeries, gaugeStats_demoSeries_mean, gaugeStatsSpec_demoSeries_mean,
    by norm_num⟩

/-- C8, amended: for every gauge that passes the feasibility filter the
persisted summary statistics are computed over the gauge's ENTIRE raw
series (not restricted to the 2000-2017 reference period the coverage check
counts), and a statistics row is retained exactly for the gauges that pass
both feasibility checks. -/
theorem stats_retained_over_full_series (ts : List TSRow) :
    (feasible ts = true → gaugeStats ts = some (summarize (ts.map (fun r => r.qobs)))) ∧
      (feasible ts = false → gaugeStats ts = none) ∧
      ((gaugeStats ts).isSome = true ↔ (qobsNonneg ts = true ∧ coverageOK ts = true)) := by
  refine ⟨fun h => by rw [gaugeStats, if_pos h], fun h => by rw [gaugeStats, if_neg (by simp [h])], ?_⟩
  rw [gaugeStats]
  by_cases h : feasible ts = true
  · rw [if_pos h]
    simp only [Option.isSome_some, true_iff]
    rw [feasible, Bool.and_eq_true] at h
    exact h
  · rw [if_neg h]
    simp only [Option.isSome_none, Bool.false_eq_true, false_iff]
    rintro ⟨h1, h2⟩
    exact h (by rw [feasible, h1, h2]; rfl)

/-- Witness for C8's amended theorem: the synthetic feasible series. -/
theorem stats_retained_over_full_series_witness :
    feasible demoSeries = true ∧
      gaugeStats demoSeries = some (summarize (demoSeries.map (fun r => r.qobs))) :=
  ⟨feasible_demoSeries,
    (stats_retained_over_full_series demoSeries).1 feasible_demoSeries⟩

end LamaH

/-! Concrete sanity checks that the embedded operations evaluate the way the
Python functions do on small inputs. -/
section Examples
open LamaH
example : yearSize 24 1 1 1900 = 8760 := by decide
example : yearSize 24 6 1 2001 = 8731 := by decide
example : decodeIndex 2 [2, 3] 3 = some (1, 2) := by decide
example : decodeIndex 1 [2, 3] 5 = none := by decide
example : collectUpstream [⟨1, 399, 1, 1⟩, ⟨2, 399, 1, 1⟩, ⟨3, 1, 1, 1⟩, ⟨4, 2, 1, 1⟩] 6 399
    = some {399, 1, 3, 2, 4} := by decide
example : repairAll [⟨1, 2, 3, 5⟩, ⟨2, 3, 4, 7⟩] [2] = [⟨1, 3, 7, 12⟩] := by
  norm_num [repairAll, removeGauge]
example : finalize [⟨1, 3, 7, 12⟩] = [⟨1, 3, 7, 12, 12/7⟩] := by
  norm_num [finalize]
example : gaugeList [⟨5, 2, 1, 1⟩, ⟨2, 3, 1, 1⟩] = [2, 3, 5] := by decide
example : edgeIndexPairs [⟨5, 2, 1, 1⟩, ⟨2, 3, 1, 1⟩] = [(2, 0), (0, 1)] := by decide
example : gaugeStats [⟨1999, 3⟩] = none := by decide
end Examples
